import Mathlib

/-!
Verification development for the Amethyst subjects module (src/amethyst.js).

The file gives a shallow embedding of the registry, the hook dispatcher and
the loader, translated line by line from the JavaScript source, and a series
of theorems settling the specification claims against that embedding.

Modelling conventions:
* JavaScript values that the loader inspects are modelled by the inductive
  type `Value`.  A plain function value carries an opaque tag (`Value.fn`),
  and `Function.prototype.bind` is modelled by `bindVal`: binding a plain
  function to a host records the host identity as its receiver, binding an
  already bound function keeps the original receiver, and binding is never
  applied to non-functions (mirroring the `isFunction` test in the source).
* A host (the `this` context of a load) is a record with an identity tag and
  an association list of properties; property assignment is `setProp`.
* The body of a `loaded` callback is user code: it is embedded as an opaque
  Lean function from the receiving host and the argument list to the updated
  host and the returned handle.  An `unloaded` callback maps the receiving
  host to the updated host.  Save hooks map the subject name and definition
  to `Except Value Unit`; an `.error v` result models the hook throwing `v`.
* The recursion of `_load`/`_loadDeps` is unbounded in the source (no cycle
  detection), so the embedding threads a fuel counter; exhausting the fuel
  yields the error `JsErr.stackOverflow`, the analogue of the runtime
  exhausting its call stack.
* Observable actions (hook invocations, registry writes, `loaded`/`unloaded`
  calls, API attachment) are recorded in an event trace so that ordering
  claims can be stated.
-/

namespace Amethyst

/-- Model of the JavaScript values manipulated by the library.  `fn` is a
plain (unbound) function value with an opaque tag; `boundFn f r` is the
result of binding function `f` to the host whose identity tag is `r`;
`obj` is a plain object given by its enumerable own properties; `arr` is
an array value. -/
inductive Value where
  | undef : Value
  | num (n : Int) : Value
  | str (s : String) : Value
  | bool (b : Bool) : Value
  | fn (f : Nat) : Value
  | boundFn (f : Nat) (recv : Nat) : Value
  | obj (entries : List (String × Value)) : Value
  | arr (elems : List Value) : Value

/-- `isFunction` from the source: true for plain and bound functions. -/
def isCallable : Value → Bool
  | .fn _ => true
  | .boundFn _ _ => true
  | _ => false

/-- The receiver a bound function observes when invoked; `none` for
values that are not bound functions. -/
def receiverOf : Value → Option Nat
  | .boundFn _ r => some r
  | _ => none

/-- `val.bind(this)` guarded by `isFunction(val)`: a plain function gets the
current host as receiver, a bound function keeps its original receiver
(rebinding a bound function does not change the receiver in JavaScript),
and any other value is returned unchanged (the source only calls `bind`
on function values). -/
def bindVal (recv : Nat) : Value → Value
  | .fn f => .boundFn f recv
  | .boundFn f r => .boundFn f r
  | v => v

/-- `isArray` from the source, on modelled values. -/
def isArrayV : Value → Bool
  | .arr _ => true
  | _ => false

/-- Lookup in a JavaScript object modelled as an ordered association
list of own properties. -/
def alistGet {α : Type} (l : List (String × α)) (n : String) : Option α :=
  (l.find? (fun p => p.1 == n)).map (·.2)

/-- Assignment `o[k] = v` on a JavaScript object modelled as an ordered
association list: overwrite an existing key in place, append otherwise. -/
def alistSet {α : Type} : List (String × α) → String → α → List (String × α)
  | [], k, v => [(k, v)]
  | (k', v') :: rest, k, v =>
      if k' == k then (k, v) :: rest else (k', v') :: alistSet rest k v

/-- A host context: an object identity tag plus its own properties. -/
structure Host where
  id : Nat
  props : List (String × Value)

/-- Property read (`host[k]`), returning `none` when the property is absent. -/
def getProp (h : Host) (k : String) : Option Value :=
  alistGet h.props k

/-- Property assignment (`host[k] = v`).  The object identity is unchanged. -/
def setProp (h : Host) (k : String) (v : Value) : Host :=
  { h with props := alistSet h.props k v }

/-- A `loaded` callback: receives the host (its bound receiver) and the
constructor arguments, returns the updated host and the handle. -/
def LoadedFn : Type := Host → List Value → Host × Value

/-- An `unloaded` callback: receives the host, returns the updated host. -/
def UnloadedFn : Type := Host → Host

/-- The shape of the `api` option: either a single function value
(`api` is a function) or a plain object of named entries. -/
inductive Api where
  | fnApi (f : Nat) : Api
  | objApi (entries : List (String × Value)) : Api

/-- A subject definition (the `options` object stored in `_store`).
All four fields are optional in the source; a field that is present but
not of the shape the loader tests for (for example a non-function
`loaded`) is skipped by the source exactly as an absent field is, so
`none` models both.  The `subjects` map sends a dependency key to an
arbitrary value; `_loadDeps` distinguishes only array from non-array
values. -/
structure SubjectDef where
  loaded : Option LoadedFn
  unloaded : Option UnloadedFn
  api : Option Api
  subjects : Option (List (String × Value))

/-- The subject store `_store`, in insertion order. -/
def Store : Type := List (String × SubjectDef)

/-- `typeof _store[name] !== "undefined"` packaged as a lookup. -/
def storeGet (s : Store) (n : String) : Option SubjectDef :=
  alistGet s n

/-- `saveSubject`: `_store[name] = options`. -/
def storeSet (s : Store) (n : String) (d : SubjectDef) : Store :=
  alistSet s n d

/-- A save hook: called with the subject name and definition; an
`.error v` result models the hook throwing the value `v`. -/
def SaveHook : Type := String → SubjectDef → Except Value Unit

/-- The module state: the store plus both ordered hook lists (in
registration order, since the source pushes new hooks at the end). -/
structure SysState where
  store : Store
  beforeSave : List SaveHook
  afterSave : List SaveHook

/-- `A.subjects.before.save(func)`: push onto `saveHooks.before`.
The `isFunction` guard of the source is discharged by typing. -/
def beforeSaveAdd (st : SysState) (h : SaveHook) : SysState :=
  { st with beforeSave := st.beforeSave ++ [h] }

/-- `A.subjects.after.save(func)`: push onto `saveHooks.after`. -/
def afterSaveAdd (st : SysState) (h : SaveHook) : SysState :=
  { st with afterSave := st.afterSave ++ [h] }

/-- Observable events of the module, recorded in execution order. -/
inductive Event where
  | beforeHook (idx : Nat) (name : String) : Event
  | saveWrite (name : String) : Event
  | afterHook (idx : Nat) (name : String) : Event
  | loadedCall (name : String) (argc : Nat) : Event
  | apiBind (name : String) : Event
  | unloadedCall (name : String) : Event
deriving DecidableEq, Repr

/-- Errors thrown by the module.  `thrown v` is a value thrown by a user
hook; `stackOverflow` models exhaustion of the call stack by the
unbounded dependency recursion. -/
inductive JsErr where
  | noName (i : Nat) : JsErr
  | badOptions (i : Nat) : JsErr
  | duplicate (name : String) : JsErr
  | notFound (name : String) : JsErr
  | thrown (v : Value) : JsErr
  | stackOverflow : JsErr

/-- One argument of the save / load loops of the source.  `arguments[i]`
in `save` is an object with `name` and `options` fields; `name = none`
models a missing (`== null`) name and `options = none` a non-object
options value. -/
structure SubjDecl where
  name : Option String
  options : Option SubjectDef

/-- Dispatch of one hook list.  The source iterates
`for (var i = hooks.length - 1; i >= 0; i--) hooks[i](name, options)`,
so the caller passes the enumerated list already in invocation order
(reverse registration order).  Each invocation is recorded; a throwing
hook aborts the remaining invocations. -/
def runHooks (nm : String) (d : SubjectDef) (mk : Nat → String → Event) :
    List (Nat × SaveHook) → List Event × Option JsErr
  | [] => ([], none)
  | (j, h) :: rest =>
      match h nm d with
      | .error v => ([mk j nm], some (.thrown v))
      | .ok _ =>
          let r := runHooks nm d mk rest
          (mk j nm :: r.1, r.2)

/-- The hook list of a phase in invocation order, pairing every hook with
its registration index. -/
def hooksRev (l : List SaveHook) : List (Nat × SaveHook) :=
  l.enum.reverse

/-- The body of one iteration of the outer loop of `save`, processing
`arguments[i]`: validate the name, validate the options, reject duplicate
names, run the before hooks, write the store, run the after hooks.  The
returned state reflects every mutation performed before a throw. -/
def saveOne (st : SysState) (i : Nat) (d : SubjDecl) :
    SysState × List Event × Option JsErr :=
  match d.name with
  | none => (st, [], some (.noName i))
  | some nm =>
    match d.options with
    | none => (st, [], some (.badOptions i))
    | some opts =>
      if (storeGet st.store nm).isSome then (st, [], some (.duplicate nm))
      else
        let rb := runHooks nm opts Event.beforeHook (hooksRev st.beforeSave)
        match rb.2 with
        | some e => (st, rb.1, some e)
        | none =>
          let st' := { st with store := storeSet st.store nm opts }
          let ra := runHooks nm opts Event.afterHook (hooksRev st.afterSave)
          (st', rb.1 ++ [.saveWrite nm] ++ ra.1, ra.2)

/-- Whether either save-hook loop would run.  When it does, the source
reuses the outer loop variable `i` (declared with `var`, hence function
scoped) as the hook loop counter, leaving `i = -1` after the hook loop,
so the outer loop over `arguments` terminates after the current item. -/
def thereAreSaveHooks (st : SysState) : Bool :=
  !st.beforeSave.isEmpty || !st.afterSave.isEmpty

/-- The outer loop of `save`, iterating `arguments` from the last index
down.  The parameter `k` is `i + 1` for the current index `i`; when a
hook loop ran, the clobbered `i` is `-1` and the loop stops. -/
def saveGo (args : List SubjDecl) : SysState → Nat → SysState × List Event × Option JsErr
  | st, 0 => (st, [], none)
  | st, k + 1 =>
      let r1 := saveOne st k (args.getD k ⟨none, none⟩)
      match r1.2.2 with
      | some e => (r1.1, r1.2.1, some e)
      | none =>
          if thereAreSaveHooks st then (r1.1, r1.2.1, none)
          else
            let r2 := saveGo args r1.1 k
            (r2.1, r1.2.1 ++ r2.2.1, r2.2.2)

/-- `A.subjects.save(...)`: process the argument list from its last
element down. -/
def save (st : SysState) (args : List SubjDecl) : SysState × List Event × Option JsErr :=
  saveGo args st args.length

/-- One subject reference handed to `_load`: either a bare name string or
an array `[name]` / `[name, argsArray]`. -/
inductive Ref where
  | str (s : String) : Ref
  | arr (name : String) (args : Option (List Value)) : Ref

def refName : Ref → String
  | .str s => s
  | .arr n _ => n

/-- `_loadDeps` normalisation of one `subjects` map value: an array value
is used as the constructor argument list directly, any other value is
wrapped in a one-element argument list. -/
def normArgs : Value → List Value
  | .arr l => l
  | v => [v]

/-- The update of the function-scoped `argsArray` local performed by one
argument of `_load`: an array argument with a second element replaces
it (`if (arguments[i].length > 1) argsArray = arguments[i][1]`), any
other argument leaves the previous value in place. -/
def updArgsArray (a : List Value) : Ref → List Value
  | .arr _ (some l) => l
  | .arr _ none => a
  | .str _ => a

/-- The arguments the current `loaded` invocation receives: none for a
bare string argument (`subject.loaded.call(this)`), the current
`argsArray` for an array argument (`subject.loaded.apply(this,
argsArray)`). -/
def loadedArgs (a : List Value) : Ref → List Value
  | .str _ => []
  | .arr n args => updArgsArray a (.arr n args)

/-- Attachment of the subject API (`if (subject.api) { ... }`): a function
API is bound to the host and assigned at the subject name; an object API
is rebuilt with every function entry bound to the host and every other
entry copied, then assigned at the subject name. -/
def applyApi (h : Host) (nm : String) : Option Api → Host × List Event
  | none => (h, [])
  | some (.fnApi f) => (setProp h nm (.boundFn f h.id), [.apiBind nm])
  | some (.objApi es) =>
      (setProp h nm (.obj (es.map (fun e => (e.1, bindVal h.id e.2)))), [.apiBind nm])

/-- The tasks of the mutually recursive `_load` / `_loadDeps` pair.
`loop a refs` is the argument loop of one `_load` invocation with current
local `argsArray` `a` over the (already reversed) remaining arguments;
`one a r` processes a single argument; `deps subs` is a `_loadDeps` call.
Locals (`argsArray`, `loadedResults`) are per invocation, so `deps`
starts each nested invocation afresh and discards its results. -/
inductive LTask where
  | loop (a : List Value) (refs : List Ref) : LTask
  | one (a : List Value) (r : Ref) : LTask
  | deps (subs : List (String × Value)) : LTask

/-- Result of a load task: the updated host, the updated `argsArray` of
the current invocation, the handles pushed onto `loadedResults` by this
task, and the events emitted by this task. -/
def LoadRes : Type := Except JsErr (Host × List Value × List Value × List Event)

/-- The engine of `_load` and `_loadDeps`, with a fuel counter standing
for the call stack.  The translation of the source is:
* `one`: look the name up in the store (throwing `notFound` otherwise),
  first load the declared nested subjects into the same host, then update
  `argsArray` when the argument array has a second element, then invoke
  `loaded` (with no arguments for a bare string reference, with the
  current `argsArray` for an array reference) pushing its handle, and
  finally attach the API.
* `loop`: process each remaining argument in order (the caller has
  already reversed the argument list, because the source iterates
  `arguments` from the last index down).
* `deps`: for each own key of the `subjects` map in order, run a fresh
  `_load` invocation on the single argument `[key, args]` and discard its
  results. -/
def loadAux (store : Store) : Nat → Host → LTask → LoadRes
  | 0, _, _ => .error .stackOverflow
  | _ + 1, h, .loop a [] => .ok (h, a, [], [])
  | fuel + 1, h, .loop a (r :: rs) =>
      match loadAux store fuel h (.one a r) with
      | .error e => .error e
      | .ok (h1, a1, res1, t1) =>
          match loadAux store fuel h1 (.loop a1 rs) with
          | .error e => .error e
          | .ok (h2, a2, res2, t2) => .ok (h2, a2, res1 ++ res2, t1 ++ t2)
  | fuel + 1, h, .one a r =>
      match storeGet store (refName r) with
      | none => .error (.notFound (refName r))
      | some subj =>
          let depsRes : Except JsErr (Host × List Event) :=
            match subj.subjects with
            | some subs =>
                match loadAux store fuel h (.deps subs) with
                | .error e => .error e
                | .ok (h1, _, _, t1) => .ok (h1, t1)
            | none => .ok (h, [])
          match depsRes with
          | .error e => .error e
          | .ok (h1, t1) =>
              match subj.loaded with
              | some f =>
                  let hv := f h1 (loadedArgs a r)
                  let r3 := applyApi hv.1 (refName r) subj.api
                  .ok (r3.1, updArgsArray a r, [hv.2],
                    t1 ++ [.loadedCall (refName r) (loadedArgs a r).length] ++ r3.2)
              | none =>
                  let r3 := applyApi h1 (refName r) subj.api
                  .ok (r3.1, updArgsArray a r, [], t1 ++ r3.2)
  | _ + 1, h, .deps [] => .ok (h, [], [], [])
  | fuel + 1, h, .deps ((k, v) :: rest) =>
      match loadAux store fuel h (.loop [] [Ref.arr k (some (normArgs v))]) with
      | .error e => .error e
      | .ok (h1, _, _, t1) =>
          match loadAux store fuel h1 (.deps rest) with
          | .error e => .error e
          | .ok (h2, _, _, t2) => .ok (h2, [], [], t1 ++ t2)

/-- A direct `_load` invocation on a host: fresh locals, arguments
iterated from the last to the first, returning `loadedResults`. -/
def loadInner (store : Store) (fuel : Nat) (host : Host) (refs : List Ref) : LoadRes :=
  loadAux store fuel host (.loop [] refs.reverse)

/-- `A.subjects.load(context, ...)`: slice off the context, apply `_load`
to the remaining arguments.  The source has no `return` statement here,
so the call evaluates to `undefined` and the `loadedResults` of the
inner `_load` call are discarded. -/
def load (store : Store) (fuel : Nat) (host : Host) (refs : List Ref) :
    Except JsErr (Value × Host × List Event) :=
  match loadInner store fuel host refs with
  | .error e => .error e
  | .ok (h, _, _, t) => .ok (Value.undef, h, t)

/-- The `loadedResults` value computed (and then discarded) by the inner
`_load` call of `load`. -/
def loadResultsOf (store : Store) (fuel : Nat) (host : Host) (refs : List Ref) :
    Except JsErr (List Value) :=
  match loadInner store fuel host refs with
  | .error e => .error e
  | .ok (_, _, res, _) => .ok res

/-- `A.subjects.unload(context, name)`: look the name up (the source
coerces its sliced singleton argument array back to the name string when
indexing `_store`), throw `notFound` when absent, otherwise invoke the
`unloaded` callback, if any, once with the host as receiver.  The host is
returned as the callback leaves it; `unload` itself performs no mutation. -/
def unload (store : Store) (host : Host) (nm : String) :
    Host × List Event × Option JsErr :=
  match storeGet store nm with
  | none => (host, [], some (.notFound nm))
  | some subj =>
      match subj.unloaded with
      | some u => (u host, [.unloadedCall nm], none)
      | none => (host, [], none)

/-! ### Concrete subjects, hooks and states used in the claim theorems

These model user code from the specification scenarios (for example the
`counter` subject of the concrete scenario in the spec) and small test
fixtures; they are not part of the library embedding itself. -/

/-- A fresh, empty host object. -/
def host0 : Host := ⟨0, []⟩

/-- An options object with no fields. -/
def optsEmpty : SubjectDef := ⟨none, none, none, none⟩

/-- A hook that observes and returns normally. -/
def okHook : SaveHook := fun _ _ => .ok ()

/-- A hook that throws the string value `boom`. -/
def throwHook : SaveHook := fun _ _ => .error (.str "boom")

/-- The `loaded` callback of the `counter` subject from the concrete
scenario of the spec: `this._n = (this._n || 0) + 1; return this._n`. -/
def counterLoaded : LoadedFn := fun h _ =>
  match getProp h "_n" with
  | some (.num k) => (setProp h "_n" (.num (k + 1)), .num (k + 1))
  | _ => (setProp h "_n" (.num 1), .num 1)

/-- The `counter` subject definition from the concrete scenario. -/
def counterDef : SubjectDef :=
  ⟨some counterLoaded, none, some (.objApi [("get", .fn 0)]), none⟩

/-- A registry holding only the `counter` subject. -/
def counterStore : Store := [("counter", counterDef)]

/-- A `loaded` callback that tags the host and returns a handle. -/
def tagAfn : LoadedFn := fun h _ => (setProp h "tagA" (.num 1), .str "handleA")

/-- A second tagging `loaded` callback. -/
def tagBfn : LoadedFn := fun h _ => (setProp h "tagB" (.num 2), .str "handleB")

def subjA : SubjectDef := ⟨some tagAfn, none, none, none⟩

def subjB : SubjectDef := ⟨some tagBfn, none, none, none⟩

/-- A registry with two independent subjects `a` and `b`. -/
def storeAB : Store := [("a", subjA), ("b", subjB)]

/-- A `loaded` callback that records the constructor arguments it
receives on the host. -/
def childFn : LoadedFn := fun h args => (setProp h "cargs" (.arr args), .undef)

def childDef : SubjectDef := ⟨some childFn, none, some (.objApi []), none⟩

def parentFn : LoadedFn := fun h _ => (h, .num 7)

/-- A parent subject declaring the nested subject map `{child: "child"}`. -/
def parentDef : SubjectDef :=
  ⟨some parentFn, none, some (.objApi []), some [("child", .str "child")]⟩

def storePC : Store := [("parent", parentDef), ("child", childDef)]

def depChildDef : SubjectDef := ⟨some childFn, none, none, none⟩

/-- A parent whose nested subject map entry `{c: "foo"}` pairs the key
`c` with the bare string value `foo`. -/
def depParentDef : SubjectDef :=
  ⟨some parentFn, none, none, some [("c", .str "foo")]⟩

def storeDep : Store := [("p", depParentDef), ("c", depChildDef)]

def storeDepC : Store := [("c", depChildDef)]

/-- A subject with a mixed object API: one method and one data entry. -/
def apiXDef : SubjectDef :=
  ⟨none, none, some (.objApi [("m", .fn 3), ("k", .num 5)]), none⟩

def storeX : Store := [("x", apiXDef)]

/-- An `unloaded` callback that observes the host without modifying it. -/
def idUnloaded : UnloadedFn := fun h => h

def uDef : SubjectDef := ⟨none, some idUnloaded, none, none⟩

def storeU : Store := [("u", uDef)]

def stNoHooks : SysState := ⟨[], [], []⟩

def stOneHook : SysState := ⟨[], [okHook], []⟩

def stTwoHooks : SysState := ⟨[], [okHook, okHook], [okHook]⟩

def stThrow : SysState := ⟨[], [throwHook], []⟩

def stWithA : SysState := ⟨[("a", subjA)], [], []⟩

def declA : SubjDecl := ⟨some "a", some subjA⟩

def declB : SubjDecl := ⟨some "b", some subjB⟩

def declX : SubjDecl := ⟨some "x", some optsEmpty⟩

/-! ### Basic lemmas about the object model -/

theorem alistGet_nil {α : Type} (n : String) : alistGet ([] : List (String × α)) n = none := rfl

theorem alistGet_cons {α : Type} (k n : String) (v : α) (l : List (String × α)) :
    alistGet ((k, v) :: l) n = if k = n then some v else alistGet l n := by
  by_cases hk : k = n
  · subst hk
    simp [alistGet, List.find?]
  · have hb : (k == n) = false := beq_eq_false_iff_ne.mpr hk
    simp [alistGet, List.find?, hb, hk]

theorem alistSet_cons {α : Type} (k n : String) (v w : α) (l : List (String × α)) :
    alistSet ((k, v) :: l) n w =
      if k = n then (n, w) :: l else (k, v) :: alistSet l n w := by
  by_cases hk : k = n
  · subst hk; simp [alistSet]
  · have hb : (k == n) = false := beq_eq_false_iff_ne.mpr hk
    simp [alistSet, hb, hk]

theorem alistGet_alistSet_self {α : Type} (l : List (String × α)) (k : String) (v : α) :
    alistGet (alistSet l k v) k = some v := by
  induction l with
  | nil => simp [alistSet, alistGet_cons]
  | cons p rest ih =>
      obtain ⟨k', v'⟩ := p
      by_cases hk : k' = k
      · subst hk; simp [alistSet_cons, alistGet_cons]
      · simp [alistSet_cons, alistGet_cons, hk, ih]

theorem alistGet_alistSet_ne {α : Type} (l : List (String × α)) (k k2 : String) (v : α)
    (hne : k2 ≠ k) : alistGet (alistSet l k v) k2 = alistGet l k2 := by
  have hkk : ¬k = k2 := fun h => hne h.symm
  induction l with
  | nil => simp [alistSet, alistGet_cons, alistGet_nil, hkk]
  | cons p rest ih =>
      obtain ⟨k', v'⟩ := p
      by_cases hk : k' = k
      · subst hk
        simp [alistSet_cons, alistGet_cons, hkk]
      · simp [alistSet_cons, alistGet_cons, hk, ih]

theorem alistGet_alistSet_isSome {α : Type} (l : List (String × α)) (k k2 : String) (v : α)
    (hs : (alistGet l k2).isSome) : (alistGet (alistSet l k v) k2).isSome := by
  by_cases hk : k2 = k
  · subst hk; simp [alistGet_alistSet_self]
  · rwa [alistGet_alistSet_ne l k k2 v hk]

theorem alistGet_map_values {α β : Type} (g : α → β) (l : List (String × α)) (k : String) :
    alistGet (l.map (fun e => (e.1, g e.2))) k = (alistGet l k).map g := by
  induction l with
  | nil => simp [alistGet_nil]
  | cons p rest ih =>
      obtain ⟨k', v'⟩ := p
      by_cases hk : k' = k
      · subst hk; simp [alistGet_cons]
      · simp [alistGet_cons, hk, ih]

theorem getProp_setProp_self (h : Host) (k : String) (v : Value) :
    getProp (setProp h k v) k = some v := by
  simp [getProp, setProp, alistGet_alistSet_self]

theorem getProp_setProp_ne (h : Host) (k k2 : String) (v : Value) (hne : k2 ≠ k) :
    getProp (setProp h k v) k2 = getProp h k2 := by
  simp [getProp, setProp, alistGet_alistSet_ne _ _ _ _ hne]

theorem getProp_setProp_isSome (h : Host) (k k2 : String) (v : Value)
    (hs : (getProp h k2).isSome) : (getProp (setProp h k v) k2).isSome := by
  simpa [getProp, setProp] using alistGet_alistSet_isSome h.props k k2 v hs

theorem setProp_id (h : Host) (k : String) (v : Value) : (setProp h k v).id = h.id := rfl

theorem bindVal_fn (recv f : Nat) : bindVal recv (.fn f) = .boundFn f recv := rfl

theorem bindVal_of_not_callable (recv : Nat) (v : Value) (hv : isCallable v = false) :
    bindVal recv v = v := by
  cases v <;> simp_all [isCallable, bindVal]

/-! ### Lemmas about API attachment -/

theorem applyApi_fst_id (h : Host) (nm : String) (o : Option Api) :
    ((applyApi h nm o).1).id = h.id := by
  match o with
  | none => rfl
  | some (.fnApi f) => rfl
  | some (.objApi es) => rfl

theorem applyApi_isSome_mono (h : Host) (nm k : String) (o : Option Api)
    (hs : (getProp h k).isSome) : (getProp (applyApi h nm o).1 k).isSome := by
  match o with
  | none => exact hs
  | some (.fnApi f) => exact getProp_setProp_isSome _ _ _ _ hs
  | some (.objApi es) => exact getProp_setProp_isSome _ _ _ _ hs

theorem applyApi_self_isSome (h : Host) (nm : String) (o : Option Api)
    (ho : o.isSome) : (getProp (applyApi h nm o).1 nm).isSome := by
  match o with
  | none => simp at ho
  | some (.fnApi f) => simp [applyApi, getProp_setProp_self]
  | some (.objApi es) => simp [applyApi, getProp_setProp_self]

theorem applyApi_events_isSome (h : Host) (nm : String) (o : Option Api)
    (ho : o.isSome) : (applyApi h nm o).2 = [.apiBind nm] := by
  match o with
  | none => simp at ho
  | some (.fnApi f) => rfl
  | some (.objApi es) => rfl

/-! ### Host preservation by user callbacks

A `loaded` callback is arbitrary user code acting on the host.  The
theorems about property presence and receiver identity hold for loads
whose callbacks behave as observers or extenders of the host: they may
add or update properties but do not delete existing ones and cannot (as
in JavaScript) change the identity of their receiver. -/

def PreservesHost (f : LoadedFn) : Prop :=
  ∀ h a, ((f h a).1.id = h.id) ∧
    ∀ k, (getProp h k).isSome → (getProp (f h a).1 k).isSome

/-- Every `loaded` callback registered in the store preserves its host. -/
def StoreOk (store : Store) : Prop :=
  ∀ n d f, storeGet store n = some d → d.loaded = some f → PreservesHost f

/-- The loader only adds or overwrites host properties: under `StoreOk`,
any load task keeps the host identity and never removes a property. -/
theorem loadAux_mono (store : Store) (hok : StoreOk store) :
    ∀ (fuel : Nat) (h : Host) (t : LTask) (out : Host × List Value × List Value × List Event),
      loadAux store fuel h t = .ok out →
      out.1.id = h.id ∧ ∀ k, (getProp h k).isSome → (getProp out.1 k).isSome := by
  intro fuel
  induction fuel with
  | zero => intro h t out heq; simp [loadAux] at heq
  | succ fuel ih =>
    intro h t out heq
    match t with
    | .loop a [] =>
        simp only [loadAux] at heq
        injection heq with heq
        subst heq
        exact ⟨rfl, fun k hk => hk⟩
    | .loop a (r :: rs) =>
        simp only [loadAux] at heq
        cases hx : loadAux store fuel h (.one a r) with
        | error e => simp only [hx] at heq; cases heq
        | ok o1 =>
          obtain ⟨h1, a1, res1, t1⟩ := o1
          simp only [hx] at heq
          cases hy : loadAux store fuel h1 (.loop a1 rs) with
          | error e => simp only [hy] at heq; cases heq
          | ok o2 =>
            obtain ⟨h2, a2, res2, t2⟩ := o2
            simp only [hy] at heq
            injection heq with heq
            subst heq
            obtain ⟨i1, p1⟩ := ih h (.one a r) _ hx
            obtain ⟨i2, p2⟩ := ih h1 (.loop a1 rs) _ hy
            exact ⟨i2.trans i1, fun k hk => p2 k (p1 k hk)⟩
    | .one a r =>
        simp only [loadAux] at heq
        cases hs : storeGet store (refName r) with
        | none => simp only [hs] at heq; cases heq
        | some subj =>
          simp only [hs] at heq
          cases hsub : subj.subjects with
          | none =>
            simp only [hsub] at heq
            cases hl : subj.loaded with
            | some f =>
                simp only [hl] at heq
                injection heq with heq
                subst heq
                have hpf : PreservesHost f := hok (refName r) subj f hs hl
                refine ⟨?_, ?_⟩
                · rw [applyApi_fst_id]; exact (hpf h _).1
                · intro k hk
                  exact applyApi_isSome_mono _ _ _ _ ((hpf h _).2 k hk)
            | none =>
                simp only [hl] at heq
                injection heq with heq
                subst heq
                refine ⟨?_, ?_⟩
                · rw [applyApi_fst_id]
                · intro k hk
                  exact applyApi_isSome_mono _ _ _ _ hk
          | some subs =>
            simp only [hsub] at heq
            cases hd : loadAux store fuel h (.deps subs) with
            | error e => simp only [hd] at heq; cases heq
            | ok od =>
              obtain ⟨h1, x1, x2, td⟩ := od
              simp only [hd] at heq
              obtain ⟨hid1, hp1⟩ := ih h (.deps subs) _ hd
              cases hl : subj.loaded with
              | some f =>
                  simp only [hl] at heq
                  injection heq with heq
                  subst heq
                  have hpf : PreservesHost f := hok (refName r) subj f hs hl
                  refine ⟨?_, ?_⟩
                  · rw [applyApi_fst_id]
                    exact ((hpf h1 _).1).trans hid1
                  · intro k hk
                    exact applyApi_isSome_mono _ _ _ _ ((hpf h1 _).2 k (hp1 k hk))
              | none =>
                  simp only [hl] at heq
                  injection heq with heq
                  subst heq
                  refine ⟨?_, ?_⟩
                  · rw [applyApi_fst_id]; exact hid1
                  · intro k hk
                    exact applyApi_isSome_mono _ _ _ _ (hp1 k hk)
    | .deps [] =>
        simp only [loadAux] at heq
        injection heq with heq
        subst heq
        exact ⟨rfl, fun k hk => hk⟩
    | .deps ((k0, v0) :: rest) =>
        simp only [loadAux] at heq
        cases hx : loadAux store fuel h (.loop [] [Ref.arr k0 (some (normArgs v0))]) with
        | error e => simp only [hx] at heq; cases heq
        | ok o1 =>
          obtain ⟨h1, a1, res1, t1⟩ := o1
          simp only [hx] at heq
          cases hy : loadAux store fuel h1 (.deps rest) with
          | error e => simp only [hy] at heq; cases heq
          | ok o2 =>
            obtain ⟨h2, a2, res2, t2⟩ := o2
            simp only [hy] at heq
            injection heq with heq
            subst heq
            obtain ⟨i1, p1⟩ := ih h (.loop [] [Ref.arr k0 (some (normArgs v0))]) _ hx
            obtain ⟨i2, p2⟩ := ih h1 (.deps rest) _ hy
            exact ⟨i2.trans i1, fun k hk => p2 k (p1 k hk)⟩

/-- Inversion of a one-argument `_load` invocation: it runs its sole
argument through the single-argument task. -/
theorem loadAux_loop_single_inv (store : Store) (fuel : Nat) (h : Host)
    (a : List Value) (r : Ref) (out : Host × List Value × List Value × List Event)
    (heq : loadAux store fuel h (.loop a [r]) = .ok out) :
    ∃ fuel2, fuel = fuel2 + 2 ∧ loadAux store (fuel2 + 1) h (.one a r) = .ok out := by
  match fuel with
  | 0 => simp [loadAux] at heq
  | fuel + 1 =>
    simp only [loadAux] at heq
    cases hx : loadAux store fuel h (.one a r) with
    | error e => simp only [hx] at heq; cases heq
    | ok o1 =>
      obtain ⟨h1, a1, res1, t1⟩ := o1
      simp only [hx] at heq
      match fuel, hx with
      | 0, hx => simp [loadAux] at heq
      | fuel2 + 1, hx =>
        simp only [loadAux] at heq
        injection heq with heq
        subst heq
        exact ⟨fuel2, rfl, by simpa using hx⟩

/-- After a successful single-argument load of a subject that declares an
`api`, the host carries a property at the subject name. -/
theorem loadAux_one_api_presence (store : Store) (fuel : Nat) (h : Host)
    (a : List Value) (r : Ref) (C : SubjectDef)
    (out : Host × List Value × List Value × List Event)
    (hs : storeGet store (refName r) = some C) (hca : C.api.isSome)
    (heq : loadAux store fuel h (.one a r) = .ok out) :
    (getProp out.1 (refName r)).isSome := by
  match fuel with
  | 0 => simp [loadAux] at heq
  | fuel + 1 =>
    simp only [loadAux] at heq
    simp only [hs] at heq
    cases hsub : C.subjects with
    | none =>
      simp only [hsub] at heq
      cases hl : C.loaded with
      | some f =>
          simp only [hl] at heq
          injection heq with heq
          subst heq
          exact applyApi_self_isSome _ _ _ hca
      | none =>
          simp only [hl] at heq
          injection heq with heq
          subst heq
          exact applyApi_self_isSome _ _ _ hca
    | some subs =>
      simp only [hsub] at heq
      cases hd : loadAux store fuel h (.deps subs) with
      | error e => simp only [hd] at heq; cases heq
      | ok od =>
        obtain ⟨h1, x1, x2, td⟩ := od
        simp only [hd] at heq
        cases hl : C.loaded with
        | some f =>
            simp only [hl] at heq
            injection heq with heq
            subst heq
            exact applyApi_self_isSome _ _ _ hca
        | none =>
            simp only [hl] at heq
            injection heq with heq
            subst heq
            exact applyApi_self_isSome _ _ _ hca

/-- After a successful single-argument load of a subject that declares a
`loaded` callback, the emitted trace records a call of that callback. -/
theorem loadAux_one_loaded_trace (store : Store) (fuel : Nat) (h : Host)
    (a : List Value) (r : Ref) (C : SubjectDef) (f : LoadedFn)
    (out : Host × List Value × List Value × List Event)
    (hs : storeGet store (refName r) = some C) (hcl : C.loaded = some f)
    (heq : loadAux store fuel h (.one a r) = .ok out) :
    ∃ m, Event.loadedCall (refName r) m ∈ out.2.2.2 := by
  match fuel with
  | 0 => simp [loadAux] at heq
  | fuel + 1 =>
    simp only [loadAux] at heq
    simp only [hs] at heq
    cases hsub : C.subjects with
    | none =>
      simp only [hsub, hcl] at heq
      injection heq with heq
      subst heq
      exact ⟨_, List.mem_append_left _ (List.mem_append_right _ (List.mem_singleton_self _))⟩
    | some subs =>
      simp only [hsub] at heq
      cases hd : loadAux store fuel h (.deps subs) with
      | error e => simp only [hd] at heq; cases heq
      | ok od =>
        obtain ⟨h1, x1, x2, td⟩ := od
        simp only [hd, hcl] at heq
        injection heq with heq
        subst heq
        exact ⟨_, List.mem_append_left _ (List.mem_append_right _ (List.mem_singleton_self _))⟩

/-- Under `StoreOk`, once the dependency walk has processed an entry
whose subject declares an `api`, that property is present on the host
when the walk completes. -/
theorem loadAux_deps_presence (store : Store) (hok : StoreOk store)
    (c : String) (C : SubjectDef)
    (hc : storeGet store c = some C) (hca : C.api.isSome) :
    ∀ (fuel : Nat) (h : Host) (subs : List (String × Value))
      (out : Host × List Value × List Value × List Event),
      loadAux store fuel h (.deps subs) = .ok out →
      (∃ v, (c, v) ∈ subs) → (getProp out.1 c).isSome := by
  intro fuel
  induction fuel with
  | zero => intro h subs out heq _; simp [loadAux] at heq
  | succ fuel ih =>
    intro h subs out heq hmem
    obtain ⟨v, hv⟩ := hmem
    match subs with
    | [] => simp at hv
    | (k0, v0) :: rest =>
      simp only [loadAux] at heq
      cases hx : loadAux store fuel h (.loop [] [Ref.arr k0 (some (normArgs v0))]) with
      | error e => simp only [hx] at heq; cases heq
      | ok o1 =>
        obtain ⟨h1, a1, res1, t1⟩ := o1
        simp only [hx] at heq
        cases hy : loadAux store fuel h1 (.deps rest) with
        | error e => simp only [hy] at heq; cases heq
        | ok o2 =>
          obtain ⟨h2, a2, res2, t2⟩ := o2
          simp only [hy] at heq
          injection heq with heq
          subst heq
          rcases List.mem_cons.mp hv with hhead | htail
          · injection hhead with hc1 hc2
            subst hc1
            obtain ⟨fuel2, rfl, hone⟩ := loadAux_loop_single_inv _ _ _ _ _ _ hx
            have hpres := loadAux_one_api_presence store (fuel2 + 1) h [] _ C
              (h1, a1, res1, t1) (by simpa [refName] using hc) hca hone
            obtain ⟨_, hmono⟩ := loadAux_mono store hok _ h1 (.deps rest)
              (h2, a2, res2, t2) hy
            exact hmono c (by simpa [refName] using hpres)
          · exact ih h1 rest (h2, a2, res2, t2) hy ⟨v, htail⟩

/-- Under a successful dependency walk, an entry whose subject declares a
`loaded` callback leaves a call of that callback in the emitted trace. -/
theorem loadAux_deps_trace (store : Store) (c : String) (C : SubjectDef) (f : LoadedFn)
    (hc : storeGet store c = some C) (hcl : C.loaded = some f) :
    ∀ (fuel : Nat) (h : Host) (subs : List (String × Value))
      (out : Host × List Value × List Value × List Event),
      loadAux store fuel h (.deps subs) = .ok out →
      (∃ v, (c, v) ∈ subs) → ∃ m, Event.loadedCall c m ∈ out.2.2.2 := by
  intro fuel
  induction fuel with
  | zero => intro h subs out heq _; simp [loadAux] at heq
  | succ fuel ih =>
    intro h subs out heq hmem
    obtain ⟨v, hv⟩ := hmem
    match subs with
    | [] => simp at hv
    | (k0, v0) :: rest =>
      simp only [loadAux] at heq
      cases hx : loadAux store fuel h (.loop [] [Ref.arr k0 (some (normArgs v0))]) with
      | error e => simp only [hx] at heq; cases heq
      | ok o1 =>
        obtain ⟨h1, a1, res1, t1⟩ := o1
        simp only [hx] at heq
        cases hy : loadAux store fuel h1 (.deps rest) with
        | error e => simp only [hy] at heq; cases heq
        | ok o2 =>
          obtain ⟨h2, a2, res2, t2⟩ := o2
          simp only [hy] at heq
          injection heq with heq
          subst heq
          rcases List.mem_cons.mp hv with hhead | htail
          · injection hhead with hc1 hc2
            subst hc1
            obtain ⟨fuel2, rfl, hone⟩ := loadAux_loop_single_inv _ _ _ _ _ _ hx
            obtain ⟨m, hm⟩ := loadAux_one_loaded_trace store (fuel2 + 1) h [] _ C f
              (h1, a1, res1, t1) (by simpa [refName] using hc) hcl hone
            simp only [refName] at hm
            exact ⟨m, List.mem_append_left _ hm⟩
          · obtain ⟨m, hm⟩ := ih h1 rest (h2, a2, res2, t2) hy ⟨v, htail⟩
            exact ⟨m, List.mem_append_right _ hm⟩

/-! ### Lemmas about hook dispatch and `save` -/

theorem runHooks_all_ok (nm : String) (d : SubjectDef) (mk : Nat → String → Event) :
    ∀ L : List (Nat × SaveHook), (∀ p ∈ L, p.2 nm d = .ok ()) →
      runHooks nm d mk L = (L.map (fun p => mk p.1 nm), none) := by
  intro L
  induction L with
  | nil => intro _; rfl
  | cons p rest ih =>
      intro hall
      obtain ⟨j, hk⟩ := p
      have hh : hk nm d = .ok () := hall (j, hk) (List.mem_cons_self _ _)
      have hrest := ih fun q hq => hall q (List.mem_cons_of_mem _ hq)
      simp [runHooks, hh, hrest]

theorem runHooks_throws (nm : String) (d : SubjectDef) (mk : Nat → String → Event) :
    ∀ L : List (Nat × SaveHook), (∃ p ∈ L, ∃ v, p.2 nm d = .error v) →
      ∃ evs v, runHooks nm d mk L = (evs, some (.thrown v)) := by
  intro L
  induction L with
  | nil => intro hex; simp at hex
  | cons p rest ih =>
      intro hex
      obtain ⟨j, hk⟩ := p
      cases hres : hk nm d with
      | error v => exact ⟨[mk j nm], v, by simp [runHooks, hres]⟩
      | ok u =>
          obtain ⟨q, hq, v, hv⟩ := hex
          rcases List.mem_cons.mp hq with rfl | hq2
          · have hv2 : hk nm d = Except.error v := hv
            rw [hres] at hv2; cases hv2
          · obtain ⟨evs, v', hrun⟩ := ih ⟨q, hq2, v, hv⟩
            exact ⟨mk j nm :: evs, v', by simp [runHooks, hres, hrun]⟩

theorem mem_enumFrom_of_mem {α : Type} (a : α) :
    ∀ (l : List α) (n : Nat), a ∈ l → ∃ j, (j, a) ∈ l.enumFrom n := by
  intro l
  induction l with
  | nil => intro n hm; simp at hm
  | cons x xs ih =>
      intro n hm
      rcases List.mem_cons.mp hm with rfl | h2
      · exact ⟨n, by simp [List.enumFrom]⟩
      · obtain ⟨j, hj⟩ := ih (n + 1) h2
        exact ⟨j, by simp [List.enumFrom, hj]⟩

theorem snd_mem_of_mem_enumFrom {α : Type} :
    ∀ (l : List α) (n : Nat) (p : Nat × α), p ∈ l.enumFrom n → p.2 ∈ l := by
  intro l
  induction l with
  | nil => intro n p hm; simp [List.enumFrom] at hm
  | cons x xs ih =>
      intro n p hm
      simp only [List.enumFrom] at hm
      rcases List.mem_cons.mp hm with rfl | h2
      · simp
      · exact List.mem_cons_of_mem _ (ih (n + 1) p h2)

theorem mem_hooksRev_of_mem (hk : SaveHook) (l : List SaveHook) (hm : hk ∈ l) :
    ∃ j, (j, hk) ∈ hooksRev l := by
  obtain ⟨j, hj⟩ := mem_enumFrom_of_mem hk l 0 hm
  exact ⟨j, by simpa [hooksRev, List.enum] using hj⟩

theorem snd_mem_of_mem_hooksRev (l : List SaveHook) (p : Nat × SaveHook)
    (hm : p ∈ hooksRev l) : p.2 ∈ l := by
  refine snd_mem_of_mem_enumFrom l 0 p ?_
  simpa [hooksRev, List.enum] using List.mem_reverse.mp hm

theorem enumFrom_map_mk (mk : Nat → String → Event) (nm : String) :
    ∀ (l : List SaveHook) (n : Nat),
      (l.enumFrom n).map (fun p => mk p.1 nm) =
        (List.range' n l.length).map (fun j => mk j nm) := by
  intro l
  induction l with
  | nil => intro n; simp [List.enumFrom]
  | cons x xs ih => intro n; simp [List.enumFrom, List.range', ih (n + 1)]

/-- The events emitted by one hook phase, when no hook throws, list the
registration indices in descending order. -/
theorem hooksRev_map_mk (mk : Nat → String → Event) (nm : String) (l : List SaveHook) :
    (hooksRev l).map (fun p => mk p.1 nm) =
      ((List.range l.length).map (fun j => mk j nm)).reverse := by
  have h1 : (hooksRev l).map (fun p => mk p.1 nm) =
      (l.enum.map (fun p => mk p.1 nm)).reverse := by
    simp [hooksRev, List.map_reverse]
  rw [h1, List.enum, enumFrom_map_mk]
  congr 1
  rw [List.range_eq_range']

/-- `saveOne` never touches the hook lists. -/
theorem saveOne_hooks (st : SysState) (i : Nat) (d : SubjDecl) :
    (saveOne st i d).1.beforeSave = st.beforeSave ∧
      (saveOne st i d).1.afterSave = st.afterSave := by
  cases hn : d.name with
  | none => simp [saveOne, hn]
  | some nm =>
    cases ho : d.options with
    | none => simp [saveOne, hn, ho]
    | some opts =>
      by_cases hdup : (storeGet st.store nm).isSome
      · simp [saveOne, hn, ho, hdup]
      · cases hrb : (runHooks nm opts Event.beforeHook (hooksRev st.beforeSave)).2 with
        | some e => simp [saveOne, hn, ho, hdup, hrb]
        | none => simp [saveOne, hn, ho, hdup, hrb]

/-- `saveOne` preserves every existing registry entry: the only write it
performs is guarded by the duplicate-name check. -/
theorem saveOne_preserves (st : SysState) (i : Nat) (d : SubjDecl)
    (nm : String) (d0 : SubjectDef) (h : storeGet st.store nm = some d0) :
    storeGet (saveOne st i d).1.store nm = some d0 := by
  cases hn : d.name with
  | none => simpa [saveOne, hn] using h
  | some nm' =>
    cases ho : d.options with
    | none => simpa [saveOne, hn, ho] using h
    | some opts =>
      by_cases hdup : (storeGet st.store nm').isSome
      · simpa [saveOne, hn, ho, hdup] using h
      · have hne : nm' ≠ nm := by
          intro he; subst he; rw [h] at hdup; simp at hdup
        cases hrb : (runHooks nm' opts Event.beforeHook (hooksRev st.beforeSave)).2 with
        | some e => simpa [saveOne, hn, ho, hdup, hrb] using h
        | none =>
            have : storeGet (storeSet st.store nm' opts) nm = some d0 := by
              rw [show storeGet (storeSet st.store nm' opts) nm = storeGet st.store nm from
                alistGet_alistSet_ne st.store nm' nm opts fun he => hne he.symm]
              exact h
            simpa [saveOne, hn, ho, hdup, hrb] using this

/-- The outer `save` loop preserves every existing registry entry. -/
theorem saveGo_preserves (args : List SubjDecl) (nm : String) (d0 : SubjectDef) :
    ∀ (k : Nat) (st : SysState), storeGet st.store nm = some d0 →
      storeGet (saveGo args st k).1.store nm = some d0 := by
  intro k
  induction k with
  | zero => intro st h; simpa [saveGo] using h
  | succ k ih =>
      intro st h
      have hpres := saveOne_preserves st k (args.getD k ⟨none, none⟩) nm d0 h
      simp only [saveGo]
      cases he : (saveOne st k (args.getD k ⟨none, none⟩)).2.2 with
      | some e => simp only [he]; exact hpres
      | none =>
          simp only [he]
          by_cases hth : thereAreSaveHooks st = true
          · simp only [if_pos hth]; exact hpres
          · simp only [if_neg hth]
            exact ih (saveOne st k (args.getD k ⟨none, none⟩)).1 hpres

/-! ### Helper facts about the concrete fixtures -/

theorem preservesHost_parentFn : PreservesHost parentFn :=
  fun _ _ => ⟨rfl, fun _ hk => hk⟩

theorem preservesHost_childFn : PreservesHost childFn :=
  fun h a => ⟨rfl, fun k hk => getProp_setProp_isSome h "cargs" k (.arr a) hk⟩

theorem storeOk_storePC : StoreOk storePC := by
  intro n d f hn hf
  by_cases h1 : n = "parent"
  · subst h1
    have : d = parentDef := by
      have h2 : storeGet storePC "parent" = some parentDef := rfl
      rw [h2] at hn; injection hn with hn; exact hn.symm
    subst this
    have : f = parentFn := by
      have h2 : parentDef.loaded = some parentFn := rfl
      rw [h2] at hf; injection hf with hf; exact hf.symm
    subst this
    exact preservesHost_parentFn
  · by_cases h2 : n = "child"
    · subst h2
      have : d = childDef := by
        have h3 : storeGet storePC "child" = some childDef := rfl
        rw [h3] at hn; injection hn with hn; exact hn.symm
      subst this
      have : f = childFn := by
        have h3 : childDef.loaded = some childFn := rfl
        rw [h3] at hf; injection hf with hf; exact hf.symm
      subst this
      exact preservesHost_childFn
    · have hp1 : ¬"parent" = n := fun hh => h1 hh.symm
      have hp2 : ¬"child" = n := fun hh => h2 hh.symm
      simp [storeGet, storePC, alistGet_cons, alistGet_nil, hp1, hp2] at hn

theorem storeOk_storeX : StoreOk storeX := by
  intro n d f hn hf
  by_cases h1 : n = "x"
  · subst h1
    have : d = apiXDef := by
      have h2 : storeGet storeX "x" = some apiXDef := rfl
      rw [h2] at hn; injection hn with hn; exact hn.symm
    subst this
    have h3 : apiXDef.loaded = (none : Option LoadedFn) := rfl
    rw [h3] at hf; cases hf
  · have hp1 : ¬"x" = n := fun hh => h1 hh.symm
    simp [storeGet, storeX, alistGet_cons, alistGet_nil, hp1] at hn

/-! ### The claim theorems -/

/-- C1: the claim states that `load(host, ...refs)` returns the ordered
sequence of handles and that `load({}, "counter")` returns `[1]`.  The
code computes the handle list `[1]` inside `_load` but the public `load`
wrapper lacks a `return` statement, so the call evaluates to `undefined`:
on the concrete scenario of the spec, `load({}, "counter")` yields
`undefined` while the handle list `[1]` is discarded (and the `loaded`
side effect on the host does happen). -/
theorem c1_load_discards_handles :
    (load counterStore 10 host0 [.str "counter"]).map (fun r => r.1) = .ok Value.undef
    ∧ loadResultsOf counterStore 10 host0 [.str "counter"] = .ok [.num 1]
    ∧ (load counterStore 10 host0 [.str "counter"]).map (fun r => r.2.1.props)
        = .ok [("_n", .num 1), ("counter", .obj [("get", .boundFn 0 0)])] :=
  ⟨rfl, rfl, rfl⟩

/-- C2: loading a subject whose `subjects` map names a registered child
loads the child into the same host first: after a successful
`load(H, parent)` where both declare an `api` and a `loaded` callback
(and callbacks preserve the host, being observers), the host carries
both the child and the parent property, and the trace shows the child
`loaded` call strictly before the parent `loaded` call. -/
theorem c2_child_loads_into_same_host_before_parent
    (store : Store) (fuel : Nat) (host : Host) (p c : String)
    (P C : SubjectDef) (subs : List (String × Value)) (dv : Value)
    (fp fc : LoadedFn)
    (hok : StoreOk store)
    (hp : storeGet store p = some P) (hsubs : P.subjects = some subs)
    (hmem : (c, dv) ∈ subs) (hc : storeGet store c = some C)
    (hpl : P.loaded = some fp) (hcl : C.loaded = some fc)
    (hpa : P.api.isSome) (hca : C.api.isSome)
    (v : Value) (h1 : Host) (tr : List Event)
    (hload : load store fuel host [.str p] = .ok (v, h1, tr)) :
    (getProp h1 c).isSome ∧ (getProp h1 p).isSome ∧
      ∃ t1 t2, tr = t1 ++ Event.loadedCall p 0 :: t2 ∧
        ∃ m, Event.loadedCall c m ∈ t1 := by
  unfold load at hload
  cases hin : loadInner store fuel host [.str p] with
  | error e => rw [hin] at hload; cases hload
  | ok o =>
    obtain ⟨H, A, R, T⟩ := o
    rw [hin] at hload
    injection hload with hload
    injection hload with e1 hload
    injection hload with e2 e3
    subst e1; subst e2; subst e3
    rw [show loadInner store fuel host [.str p]
        = loadAux store fuel host (.loop [] [.str p]) from rfl] at hin
    obtain ⟨f2, rfl, hone⟩ := loadAux_loop_single_inv store fuel host [] (.str p) _ hin
    simp only [loadAux, refName, loadedArgs, updArgsArray, List.length_nil] at hone
    simp only [hp, hsubs, hpl] at hone
    cases hd : loadAux store f2 host (.deps subs) with
    | error e => simp only [hd] at hone; cases hone
    | ok od =>
      obtain ⟨hD, x1, x2, tD⟩ := od
      simp only [hd] at hone
      injection hone with hone
      injection hone with e1 hone
      injection hone with e2 hone
      injection hone with e3 e4
      refine ⟨?_, ?_, ?_⟩
      · rw [← e1]
        have hdp : (getProp hD c).isSome :=
          loadAux_deps_presence store hok c C hc hca f2 host subs (hD, x1, x2, tD)
            hd ⟨dv, hmem⟩
        have hpf := hok p P fp hp hpl
        exact applyApi_isSome_mono _ _ _ _ ((hpf hD []).2 c hdp)
      · rw [← e1]
        exact applyApi_self_isSome _ _ _ hpa
      · refine ⟨tD, [.apiBind p], ?_, ?_⟩
        · rw [← e4, applyApi_events_isSome _ _ _ hpa]
          simp
        · exact loadAux_deps_trace store c C fc hc hcl f2 host subs
            (hD, x1, x2, tD) hd ⟨dv, hmem⟩

/-- Witness for C2: the concrete parent and child registry. -/
theorem c2_child_loads_into_same_host_before_parent_witness :
    ∃ v h1 tr, load storePC 10 host0 [.str "parent"] = .ok (v, h1, tr) ∧
      (getProp h1 "child").isSome ∧ (getProp h1 "parent").isSome ∧
      ∃ t1 t2, tr = t1 ++ Event.loadedCall "parent" 0 :: t2 ∧
        ∃ m, Event.loadedCall "child" m ∈ t1 := by
  refine ⟨Value.undef,
    ⟨0, [("cargs", .arr [.str "child"]), ("child", .obj []), ("parent", .obj [])]⟩,
    [.loadedCall "child" 1, .apiBind "child", .loadedCall "parent" 0, .apiBind "parent"],
    rfl, ?_⟩
  exact c2_child_loads_into_same_host_before_parent storePC 10 host0 "parent" "child"
    parentDef childDef [("child", .str "child")] (.str "child") parentFn childFn
    storeOk_storePC rfl rfl (List.mem_singleton_self _) rfl rfl rfl rfl rfl
    _ _ _ rfl

/-- C3: the claim states that `save(d1, ..., dn)` processes every
definition (hooks, write, hooks per definition), whatever the hook
lists hold.  The code reuses the function-scoped loop variable `i` as
the hook loop counter, so whenever a save hook is registered the outer
loop over the arguments terminates after one item: with one before-save
hook, `save(a, b)` registers only `b` (the last argument, since the
outer loop iterates backwards), silently skipping `a`, and reports no
error.  Without hooks both are registered (in reverse argument order),
pinning the divergence on the loop-variable clobbering. -/
theorem c3_save_skips_definitions_when_hooks_present :
    (save stOneHook [declA, declB]).2.2 = none
    ∧ storeGet (save stOneHook [declA, declB]).1.store "b" = some subjB
    ∧ storeGet (save stOneHook [declA, declB]).1.store "a" = none
    ∧ (save stOneHook [declA, declB]).2.1
        = [Event.beforeHook 0 "b", Event.saveWrite "b"]
    ∧ (save stNoHooks [declA, declB]).1.store.map (fun p => p.1) = ["b", "a"] :=
  ⟨rfl, rfl, rfl, rfl, rfl⟩

/-- C4 (amended): `load(host, ref1, ..., refn)` processes the refs in
reverse caller order, each ref fully processed before the next, and each
ref runs its full pipeline in order.  Three laws, general over every
registry, host, fuel and ref sequence:
1. a successful `load` evaluates to `undefined` and is the argument loop
   run over the reversed ref sequence;
2. the argument loop on `r :: rs` first completes the whole
   single-argument task of `r` (its dependencies, `loaded` call and API
   binding) from the current host, and only then processes `rs` from the
   host `r` left behind, concatenating handles and events — applied
   recursively this processes `refn` fully before `refn-1`, and so on
   down to `ref1`;
3. the single-argument task of a registered ref resolves and loads its
   declared nested subjects first, then invokes `loaded` (when declared)
   on the dependency-updated host with the arguments selected by the
   ref shape, and applies the API binding last, with the emitted events
   in exactly that order. -/
theorem c4_refs_processed_in_reverse_order (store : Store) :
    (∀ (fuel : Nat) (host : Host) (refs : List Ref) (v : Value) (h1 : Host)
        (tr : List Event),
      load store fuel host refs = .ok (v, h1, tr) →
      v = Value.undef ∧
        ∃ a2 res, loadAux store fuel host (.loop [] refs.reverse) = .ok (h1, a2, res, tr))
    ∧ (∀ (fuel : Nat) (h : Host) (a : List Value) (r : Ref) (rs : List Ref)
        (out : Host × List Value × List Value × List Event),
      loadAux store (fuel + 1) h (.loop a (r :: rs)) = .ok out →
      ∃ mid rest, loadAux store fuel h (.one a r) = .ok mid
        ∧ loadAux store fuel mid.1 (.loop mid.2.1 rs) = .ok rest
        ∧ out = (rest.1, rest.2.1, mid.2.2.1 ++ rest.2.2.1, mid.2.2.2 ++ rest.2.2.2))
    ∧ (∀ (fuel : Nat) (h : Host) (a : List Value) (r : Ref) (subj : SubjectDef)
        (out : Host × List Value × List Value × List Event),
      storeGet store (refName r) = some subj →
      loadAux store (fuel + 1) h (.one a r) = .ok out →
      ∃ hD tD,
        ((subj.subjects = none ∧ hD = h ∧ tD = [])
          ∨ ∃ subs x1 x2, subj.subjects = some subs ∧
              loadAux store fuel h (.deps subs) = .ok (hD, x1, x2, tD))
        ∧ ((subj.loaded = none ∧
              out = ((applyApi hD (refName r) subj.api).1, updArgsArray a r, [],
                tD ++ (applyApi hD (refName r) subj.api).2))
          ∨ ∃ f, subj.loaded = some f ∧
              out = ((applyApi (f hD (loadedArgs a r)).1 (refName r) subj.api).1,
                updArgsArray a r, [(f hD (loadedArgs a r)).2],
                tD ++ [Event.loadedCall (refName r) (loadedArgs a r).length]
                  ++ (applyApi (f hD (loadedArgs a r)).1 (refName r) subj.api).2))) := by
  refine ⟨?_, ?_, ?_⟩
  · intro fuel host refs v h1 tr hload
    unfold load at hload
    cases hin : loadInner store fuel host refs with
    | error e => rw [hin] at hload; cases hload
    | ok o =>
      obtain ⟨H, A, R, T⟩ := o
      rw [hin] at hload
      injection hload with hload
      injection hload with e1 hload
      injection hload with e2 e3
      subst e1; subst e2; subst e3
      exact ⟨rfl, A, R, hin⟩
  · intro fuel h a r rs out heq
    simp only [loadAux] at heq
    cases hx : loadAux store fuel h (.one a r) with
    | error e => simp only [hx] at heq; cases heq
    | ok o1 =>
      obtain ⟨H1, A1, R1, T1⟩ := o1
      simp only [hx] at heq
      cases hy : loadAux store fuel H1 (.loop A1 rs) with
      | error e => simp only [hy] at heq; cases heq
      | ok o2 =>
        obtain ⟨H2, A2, R2, T2⟩ := o2
        simp only [hy] at heq
        injection heq with heq
        exact ⟨(H1, A1, R1, T1), (H2, A2, R2, T2), rfl, hy, heq.symm⟩
  · intro fuel h a r subj out hs heq
    simp only [loadAux] at heq
    simp only [hs] at heq
    cases hsub : subj.subjects with
    | none =>
      simp only [hsub] at heq
      cases hl : subj.loaded with
      | some f =>
          simp only [hl] at heq
          injection heq with heq
          exact ⟨h, [], Or.inl ⟨rfl, rfl, rfl⟩, Or.inr ⟨f, rfl, heq.symm⟩⟩
      | none =>
          simp only [hl] at heq
          injection heq with heq
          exact ⟨h, [], Or.inl ⟨rfl, rfl, rfl⟩, Or.inl ⟨rfl, heq.symm⟩⟩
    | some subs =>
      simp only [hsub] at heq
      cases hd : loadAux store fuel h (.deps subs) with
      | error e => simp only [hd] at heq; cases heq
      | ok od =>
        obtain ⟨hD, x1, x2, tD⟩ := od
        simp only [hd] at heq
        cases hl : subj.loaded with
        | some f =>
            simp only [hl] at heq
            injection heq with heq
            exact ⟨hD, tD, Or.inr ⟨subs, x1, x2, rfl, hd⟩, Or.inr ⟨f, rfl, heq.symm⟩⟩
        | none =>
            simp only [hl] at heq
            injection heq with heq
            exact ⟨hD, tD, Or.inr ⟨subs, x1, x2, rfl, hd⟩, Or.inl ⟨rfl, heq.symm⟩⟩

/-- Counterexample for C4 as stated: the claim requires the refs to be
processed in the order supplied by the caller, but the trace of
`load(host, a, b)` runs `b` before `a`. -/
theorem c4_supplied_order_counterexample :
    (load storeAB 10 host0 [.str "a", .str "b"]).map (fun r => r.2.2)
      = .ok [Event.loadedCall "b" 0, Event.loadedCall "a" 0]
    ∧ [Event.loadedCall "b" 0, Event.loadedCall "a" 0]
        ≠ [Event.loadedCall "a" 0, Event.loadedCall "b" 0] :=
  ⟨rfl, by decide⟩

/-- Witness for C4 (amended): every part exercised at concrete inputs —
the two-subject registry for the reversal and step laws, and the
parent-with-dependency registry (declared `subjects` map, `loaded` and
`api`) for the full single-ref pipeline. -/
theorem c4_refs_processed_in_reverse_order_witness :
    (Value.undef = Value.undef ∧
      ∃ a2 res, loadAux storeAB 10 host0 (.loop [] [Ref.str "a", Ref.str "b"].reverse)
        = .ok (⟨0, [("tagB", .num 2), ("tagA", .num 1)]⟩, a2, res,
            [Event.loadedCall "b" 0, Event.loadedCall "a" 0]))
    ∧ (∃ mid rest, loadAux storeAB 9 host0 (.one [] (.str "b")) = .ok mid
        ∧ loadAux storeAB 9 mid.1 (.loop mid.2.1 [Ref.str "a"]) = .ok rest
        ∧ ((⟨0, [("tagB", .num 2), ("tagA", .num 1)]⟩ : Host), ([] : List Value),
            [Value.str "handleB", Value.str "handleA"],
            [Event.loadedCall "b" 0, Event.loadedCall "a" 0])
          = (rest.1, rest.2.1, mid.2.2.1 ++ rest.2.2.1, mid.2.2.2 ++ rest.2.2.2))
    ∧ ∃ hD tD,
        ((parentDef.subjects = none ∧ hD = host0 ∧ tD = [])
          ∨ ∃ subs x1 x2, parentDef.subjects = some subs ∧
              loadAux storePC 9 host0 (.deps subs) = .ok (hD, x1, x2, tD))
        ∧ ((parentDef.loaded = none ∧
              ((⟨0, [("cargs", Value.arr [.str "child"]), ("child", .obj []),
                  ("parent", .obj [])]⟩ : Host), ([] : List Value), [Value.num 7],
                [Event.loadedCall "child" 1, Event.apiBind "child",
                  Event.loadedCall "parent" 0, Event.apiBind "parent"])
                = ((applyApi hD "parent" parentDef.api).1,
                    updArgsArray [] (Ref.str "parent"), [],
                    tD ++ (applyApi hD "parent" parentDef.api).2))
          ∨ ∃ f, parentDef.loaded = some f ∧
              ((⟨0, [("cargs", Value.arr [.str "child"]), ("child", .obj []),
                  ("parent", .obj [])]⟩ : Host), ([] : List Value), [Value.num 7],
                [Event.loadedCall "child" 1, Event.apiBind "child",
                  Event.loadedCall "parent" 0, Event.apiBind "parent"])
                = ((applyApi (f hD (loadedArgs [] (Ref.str "parent"))).1
                      "parent" parentDef.api).1,
                    updArgsArray [] (Ref.str "parent"),
                    [(f hD (loadedArgs [] (Ref.str "parent"))).2],
                    tD ++ [Event.loadedCall "parent"
                        (loadedArgs [] (Ref.str "parent")).length]
                      ++ (applyApi (f hD (loadedArgs [] (Ref.str "parent"))).1
                          "parent" parentDef.api).2)) := by
  refine ⟨?_, ?_, ?_⟩
  · exact (c4_refs_processed_in_reverse_order storeAB).1 10 host0
      [Ref.str "a", Ref.str "b"] Value.undef
      ⟨0, [("tagB", .num 2), ("tagA", .num 1)]⟩
      [Event.loadedCall "b" 0, Event.loadedCall "a" 0] rfl
  · exact (c4_refs_processed_in_reverse_order storeAB).2.1 9 host0 []
      (.str "b") [Ref.str "a"]
      (⟨0, [("tagB", .num 2), ("tagA", .num 1)]⟩, [],
        [Value.str "handleB", Value.str "handleA"],
        [Event.loadedCall "b" 0, Event.loadedCall "a" 0]) rfl
  · exact (c4_refs_processed_in_reverse_order storePC).2.2 9 host0 []
      (.str "parent") parentDef
      (⟨0, [("cargs", Value.arr [.str "child"]), ("child", .obj []),
          ("parent", .obj [])]⟩, [], [Value.num 7],
        [Event.loadedCall "child" 1, Event.apiBind "child",
          Event.loadedCall "parent" 0, Event.apiBind "parent"]) rfl rfl

/-- C5 (amended): during `save` of a valid fresh definition, every
registered `before.save` hook runs, each passed the name and definition,
strictly before the registry write, and every `after.save` hook runs
after it — but each phase dispatches its hooks in reverse registration
order (the source iterates the hook arrays from the last index down),
not in registration order as claimed. -/
theorem c5_hooks_run_in_reverse_registration_order
    (st : SysState) (nm : String) (opts : SubjectDef)
    (hfresh : storeGet st.store nm = none)
    (hb : ∀ hk ∈ st.beforeSave, hk nm opts = .ok ())
    (ha : ∀ hk ∈ st.afterSave, hk nm opts = .ok ()) :
    save st [⟨some nm, some opts⟩]
      = ({ st with store := storeSet st.store nm opts },
        ((List.range st.beforeSave.length).map (fun j => Event.beforeHook j nm)).reverse
          ++ [Event.saveWrite nm]
          ++ ((List.range st.afterSave.length).map (fun j => Event.afterHook j nm)).reverse,
        none) := by
  have hrb := runHooks_all_ok nm opts Event.beforeHook (hooksRev st.beforeSave)
    (fun p hp => hb p.2 (snd_mem_of_mem_hooksRev _ _ hp))
  have hra := runHooks_all_ok nm opts Event.afterHook (hooksRev st.afterSave)
    (fun p hp => ha p.2 (snd_mem_of_mem_hooksRev _ _ hp))
  have h1 : saveOne st 0 ⟨some nm, some opts⟩
      = ({ st with store := storeSet st.store nm opts },
        (hooksRev st.beforeSave).map (fun p => Event.beforeHook p.1 nm)
          ++ [Event.saveWrite nm]
          ++ (hooksRev st.afterSave).map (fun p => Event.afterHook p.1 nm),
        none) := by
    simp only [saveOne]
    rw [hfresh]
    simp [hrb, hra]
  have h2 : save st [⟨some nm, some opts⟩] = saveGo [⟨some nm, some opts⟩] st 1 := rfl
  rw [h2]
  simp only [saveGo]
  rw [show ([(⟨some nm, some opts⟩ : SubjDecl)].getD 0 ⟨none, none⟩)
      = (⟨some nm, some opts⟩ : SubjDecl) from rfl]
  rw [h1, hooksRev_map_mk, hooksRev_map_mk]
  by_cases hth : thereAreSaveHooks st = true
  · simp [hth]
  · simp [hth, saveGo]

/-- Counterexample for C5 as stated: with two registered `before.save`
hooks, the dispatch during a single `save` invokes hook 1 before hook 0,
not in registration order. -/
theorem c5_registration_order_counterexample :
    (save stTwoHooks [declX]).2.1
      = [Event.beforeHook 1 "x", Event.beforeHook 0 "x", Event.saveWrite "x",
         Event.afterHook 0 "x"]
    ∧ [Event.beforeHook 1 "x", Event.beforeHook 0 "x", Event.saveWrite "x",
         Event.afterHook 0 "x"]
      ≠ [Event.beforeHook 0 "x", Event.beforeHook 1 "x", Event.saveWrite "x",
         Event.afterHook 0 "x"] :=
  ⟨rfl, by decide⟩

/-- Witness for C5 (amended): two before hooks and one after hook. -/
theorem c5_hooks_run_in_reverse_registration_order_witness :
    save stTwoHooks [declX]
      = ({ stTwoHooks with store := storeSet stTwoHooks.store "x" optsEmpty },
        ((List.range stTwoHooks.beforeSave.length).map
            (fun j => Event.beforeHook j "x")).reverse
          ++ [Event.saveWrite "x"]
          ++ ((List.range stTwoHooks.afterSave.length).map
            (fun j => Event.afterHook j "x")).reverse,
        none) := by
  have hb : ∀ hk ∈ stTwoHooks.beforeSave, hk "x" optsEmpty = .ok () := by
    intro hk hm
    rcases List.mem_cons.mp hm with rfl | hm2
    · rfl
    · rcases List.mem_cons.mp hm2 with rfl | hm3
      · rfl
      · simp at hm3
  have ha : ∀ hk ∈ stTwoHooks.afterSave, hk "x" optsEmpty = .ok () := by
    intro hk hm
    rcases List.mem_cons.mp hm with rfl | hm2
    · rfl
    · simp at hm2
  exact c5_hooks_run_in_reverse_registration_order stTwoHooks "x" optsEmpty rfl hb ha

/-- C6: once a name is registered, a later `save` of the same name
throws the duplicate-name error before any hook or write, leaving the
whole state untouched, and no `save` call (the only operation writing
the registry) ever overwrites or removes an existing entry. -/
theorem c6_duplicate_save_rejected_registry_append_only
    (st : SysState) (nm : String) (d0 : SubjectDef)
    (h : storeGet st.store nm = some d0) :
    (∀ opts, save st [⟨some nm, some opts⟩] = (st, [], some (.duplicate nm)))
    ∧ ∀ args, storeGet (save st args).1.store nm = some d0 := by
  constructor
  · intro opts
    have h1 : saveOne st 0 ⟨some nm, some opts⟩ = (st, [], some (.duplicate nm)) := by
      simp only [saveOne]
      rw [h]
      simp
    have h2 : save st [⟨some nm, some opts⟩] = saveGo [⟨some nm, some opts⟩] st 1 := rfl
    rw [h2]
    simp only [saveGo]
    rw [show ([(⟨some nm, some opts⟩ : SubjDecl)].getD 0 ⟨none, none⟩)
        = (⟨some nm, some opts⟩ : SubjDecl) from rfl]
    rw [h1]
  · intro args
    exact saveGo_preserves args nm d0 args.length st h

/-- Witness for C6: a registry already holding `a` rejects a second
definition named `a` and keeps the original through later saves. -/
theorem c6_duplicate_save_rejected_registry_append_only_witness :
    save stWithA [⟨some "a", some subjB⟩] = (stWithA, [], some (.duplicate "a"))
    ∧ storeGet (save stWithA [declB, ⟨some "a", some optsEmpty⟩]).1.store "a"
        = some subjA := by
  constructor
  · exact (c6_duplicate_save_rejected_registry_append_only stWithA "a" subjA rfl).1 subjB
  · exact (c6_duplicate_save_rejected_registry_append_only stWithA "a" subjA rfl).2
      [declB, ⟨some "a", some optsEmpty⟩]

/-- C7: when a registered `before.save` hook throws during the save of a
fresh valid definition, the registry write does not occur (the whole
state is unchanged) and the thrown value propagates to the caller. -/
theorem c7_throwing_before_hook_aborts_write
    (st : SysState) (nm : String) (opts : SubjectDef)
    (hfresh : storeGet st.store nm = none)
    (hthrow : ∃ hk ∈ st.beforeSave, ∃ v, hk nm opts = .error v) :
    (save st [⟨some nm, some opts⟩]).1 = st
    ∧ storeGet (save st [⟨some nm, some opts⟩]).1.store nm = none
    ∧ ∃ v2, (save st [⟨some nm, some opts⟩]).2.2 = some (.thrown v2) := by
  obtain ⟨hk, hmem, v, hv⟩ := hthrow
  obtain ⟨j, hj⟩ := mem_hooksRev_of_mem hk st.beforeSave hmem
  obtain ⟨evs, v2, hrun⟩ := runHooks_throws nm opts Event.beforeHook
    (hooksRev st.beforeSave) ⟨(j, hk), hj, v, hv⟩
  have h1 : saveOne st 0 ⟨some nm, some opts⟩ = (st, evs, some (.thrown v2)) := by
    simp only [saveOne]
    rw [hfresh]
    simp [hrun]
  have h2 : save st [⟨some nm, some opts⟩] = saveGo [⟨some nm, some opts⟩] st 1 := rfl
  rw [h2]
  simp only [saveGo]
  rw [show ([(⟨some nm, some opts⟩ : SubjDecl)].getD 0 ⟨none, none⟩)
      = (⟨some nm, some opts⟩ : SubjDecl) from rfl]
  rw [h1]
  exact ⟨rfl, hfresh, v2, rfl⟩

/-- Witness for C7: one registered throwing hook. -/
theorem c7_throwing_before_hook_aborts_write_witness :
    (save stThrow [declX]).1 = stThrow
    ∧ storeGet (save stThrow [declX]).1.store "x" = none
    ∧ ∃ v2, (save stThrow [declX]).2.2 = some (.thrown v2) :=
  c7_throwing_before_hook_aborts_write stThrow "x" optsEmpty rfl
    ⟨throwHook, List.mem_singleton_self _, .str "boom", rfl⟩

/-- Inversion of a single-argument load of a subject with an object API:
the final step assigns, at the subject name, the object rebuilt with
every entry bound to the current host, whose identity (under `StoreOk`)
is that of the original host. -/
theorem loadAux_one_obj_api (store : Store) (hok : StoreOk store)
    (fuel : Nat) (h : Host) (a : List Value) (r : Ref)
    (X : SubjectDef) (es : List (String × Value))
    (hs : storeGet store (refName r) = some X)
    (hapi : X.api = some (.objApi es))
    (out : Host × List Value × List Value × List Event)
    (heq : loadAux store fuel h (.one a r) = .ok out) :
    ∃ hmid : Host, hmid.id = h.id ∧
      out.1 = setProp hmid (refName r)
        (.obj (es.map (fun e => (e.1, bindVal hmid.id e.2)))) := by
  match fuel with
  | 0 => simp [loadAux] at heq
  | fuel + 1 =>
    simp only [loadAux] at heq
    simp only [hs] at heq
    cases hsub : X.subjects with
    | none =>
      simp only [hsub] at heq
      cases hl : X.loaded with
      | some g =>
          simp only [hl, hapi, applyApi] at heq
          injection heq with heq
          have hpf : PreservesHost g := hok (refName r) X g hs hl
          exact ⟨(g h _).1, (hpf h _).1, by rw [← heq]⟩
      | none =>
          simp only [hl, hapi, applyApi] at heq
          injection heq with heq
          exact ⟨h, rfl, by rw [← heq]⟩
    | some subs =>
      simp only [hsub] at heq
      cases hd : loadAux store fuel h (.deps subs) with
      | error e => simp only [hd] at heq; cases heq
      | ok od =>
        obtain ⟨hD, x1, x2, td⟩ := od
        simp only [hd] at heq
        obtain ⟨hid1, _⟩ := loadAux_mono store hok fuel h (.deps subs) _ hd
        cases hl : X.loaded with
        | some g =>
            simp only [hl, hapi, applyApi] at heq
            injection heq with heq
            have hpf : PreservesHost g := hok (refName r) X g hs hl
            exact ⟨(g hD _).1, ((hpf hD _).1).trans hid1, by rw [← heq]⟩
        | none =>
            simp only [hl, hapi, applyApi] at heq
            injection heq with heq
            exact ⟨hD, hid1, by rw [← heq]⟩

/-- C8: after a successful `load(host, x)` of a subject whose `api` is a
mapping, the host carries at the subject name an object in which every
function-valued entry has become a function bound to the host itself
(receiver identity round-trip) and every non-function entry is the
original value.  `StoreOk` keeps user callbacks from changing the host
identity, which JavaScript callbacks cannot do. -/
theorem c8_api_mapping_bound_to_host
    (store : Store) (fuel : Nat) (host : Host) (x m : String)
    (X : SubjectDef) (es : List (String × Value)) (f : Nat)
    (hok : StoreOk store)
    (hx : storeGet store x = some X)
    (hapi : X.api = some (.objApi es))
    (hm : alistGet es m = some (.fn f))
    (v : Value) (h1 : Host) (tr : List Event)
    (hload : load store fuel host [.str x] = .ok (v, h1, tr)) :
    ∃ es2, getProp h1 x = some (.obj es2)
      ∧ alistGet es2 m = some (.boundFn f host.id)
      ∧ isCallable (.boundFn f host.id) = true
      ∧ receiverOf (.boundFn f host.id) = some host.id
      ∧ ∀ k w, alistGet es k = some w → isCallable w = false →
          alistGet es2 k = some w := by
  unfold load at hload
  cases hin : loadInner store fuel host [.str x] with
  | error e => rw [hin] at hload; cases hload
  | ok o =>
    obtain ⟨H, A, R, T⟩ := o
    rw [hin] at hload
    injection hload with hload
    injection hload with e1 hload
    injection hload with e2 e3
    subst e1; subst e2; subst e3
    rw [show loadInner store fuel host [.str x]
        = loadAux store fuel host (.loop [] [.str x]) from rfl] at hin
    obtain ⟨f2, rfl, hone⟩ := loadAux_loop_single_inv store fuel host [] (.str x) _ hin
    obtain ⟨hmid, hmidId, hout⟩ := loadAux_one_obj_api store hok (f2 + 1) host []
      (.str x) X es (by simpa [refName] using hx) hapi _ hone
    simp only [refName] at hout
    refine ⟨es.map (fun e => (e.1, bindVal host.id e.2)), ?_, ?_, rfl, rfl, ?_⟩
    · rw [hout, hmidId, getProp_setProp_self]
    · rw [alistGet_map_values, hm]; rfl
    · intro k w hw hcall
      rw [alistGet_map_values, hw]
      simp [bindVal_of_not_callable _ _ hcall]

/-- Witness for C8: the concrete mixed API subject. -/
theorem c8_api_mapping_bound_to_host_witness :
    ∃ v h1 tr, load storeX 10 host0 [.str "x"] = .ok (v, h1, tr)
      ∧ ∃ es2, getProp h1 "x" = some (.obj es2)
        ∧ alistGet es2 "m" = some (.boundFn 3 host0.id)
        ∧ isCallable (.boundFn 3 host0.id) = true
        ∧ receiverOf (.boundFn 3 host0.id) = some host0.id
        ∧ ∀ k w, alistGet [("m", Value.fn 3), ("k", Value.num 5)] k = some w →
            isCallable w = false → alistGet es2 k = some w := by
  refine ⟨Value.undef, ⟨0, [("x", .obj [("m", .boundFn 3 0), ("k", .num 5)])]⟩,
    [.apiBind "x"], rfl, ?_⟩
  exact c8_api_mapping_bound_to_host storeX 10 host0 "x" "m" apiXDef
    [("m", .fn 3), ("k", .num 5)] 3 storeOk_storeX rfl rfl rfl _ _ _ rfl

/-- C9: `unload(host, name)` fails with the not-found error (leaving the
host untouched) when the name was never registered; when registered with
an `unloaded` callable it invokes that callable exactly once with the
host as receiver and performs no mutation of its own — the host is
exactly what the callback returns, hence unchanged in every property
whenever the callback preserves them (and trivially when `unloaded` is
absent). -/
theorem c9_unload_invokes_callback_only
    (store : Store) (host : Host) (nm : String) :
    (storeGet store nm = none →
        unload store host nm = (host, [], some (.notFound nm)))
    ∧ (∀ d u, storeGet store nm = some d → d.unloaded = some u →
        unload store host nm = (u host, [.unloadedCall nm], none)
        ∧ ((∀ k, getProp (u host) k = getProp host k) →
            ∀ k, getProp (unload store host nm).1 k = getProp host k))
    ∧ (∀ d, storeGet store nm = some d → d.unloaded = none →
        unload store host nm = (host, [], none)) := by
  refine ⟨?_, ?_, ?_⟩
  · intro h; simp [unload, h]
  · intro d u hd hu
    constructor
    · simp [unload, hd, hu]
    · intro hp k
      simp [unload, hd, hu, hp k]
  · intro d hd hu; simp [unload, hd, hu]

/-- Witness for C9: an unknown name fails; a registered subject with an
observing `unloaded` callback is invoked once with the host receiver and
the host keeps all properties. -/
theorem c9_unload_invokes_callback_only_witness :
    unload storeU host0 "nope" = (host0, [], some (.notFound "nope"))
    ∧ unload storeU host0 "u" = (idUnloaded host0, [.unloadedCall "u"], none)
    ∧ ∀ k, getProp (unload storeU host0 "u").1 k = getProp host0 k := by
  refine ⟨?_, ?_, ?_⟩
  · exact (c9_unload_invokes_callback_only storeU host0 "nope").1 rfl
  · exact ((c9_unload_invokes_callback_only storeU host0 "u").2.1
      uDef idUnloaded rfl rfl).1
  · exact ((c9_unload_invokes_callback_only storeU host0 "u").2.1
      uDef idUnloaded rfl rfl).2 (fun _ => rfl)

theorem normArgs_of_not_array (v : Value) (hv : isArrayV v = false) :
    normArgs v = [v] := by
  cases v <;> simp_all [isArrayV, normArgs]

/-- C10 (amended): resolving one entry of a `subjects` map loads the
subject named by the entry KEY; a bare (non-array) value `v` is
normalised to the one-element constructor argument list `[v]` — the
nested `loaded` receives `v` as its single argument, not an empty
argument list — while an array value passes its elements as the
argument list. -/
theorem c10_dep_value_becomes_constructor_args
    (store : Store) (fuel : Nat) (host : Host) (k : String) (vdep : Value)
    (C : SubjectDef) (f : LoadedFn)
    (hk : storeGet store k = some C)
    (hsub : C.subjects = none) (hl : C.loaded = some f) (hapi : C.api = none)
    (out : Host × List Value × List Value × List Event)
    (hrun : loadAux store fuel host (.deps [(k, vdep)]) = .ok out) :
    (isArrayV vdep = false →
        out = ((f host [vdep]).1, [], [], [Event.loadedCall k 1]))
    ∧ ∀ l, vdep = .arr l →
        out = ((f host l).1, [], [], [Event.loadedCall k l.length]) := by
  match fuel with
  | 0 => simp [loadAux] at hrun
  | F + 1 =>
    simp only [loadAux] at hrun
    cases hx : loadAux store F host (.loop [] [Ref.arr k (some (normArgs vdep))]) with
    | error e => simp only [hx] at hrun; cases hrun
    | ok o1 =>
      obtain ⟨H1, A1, R1, T1⟩ := o1
      simp only [hx] at hrun
      match F, hx with
      | 0, hx => simp [loadAux] at hx
      | F2 + 1, hx =>
        simp only [loadAux] at hrun
        injection hrun with hrun
        obtain ⟨F3, hF, hone⟩ := loadAux_loop_single_inv store (F2 + 1) host []
          (Ref.arr k (some (normArgs vdep))) _ hx
        have hFF : F2 = F3 + 1 := by omega
        subst hFF
        simp only [loadAux, refName] at hone
        simp only [hk, hsub, hl, hapi, applyApi] at hone
        injection hone with hone
        injection hone with g1 hone
        injection hone with g2 hone
        injection hone with g3 g4
        constructor
        · intro hv
          rw [← hrun, ← g1, ← g4, normArgs_of_not_array vdep hv]
          simp [loadedArgs, updArgsArray]
        · intro l hvl
          subst hvl
          rw [← hrun, ← g1, ← g4]
          simp [normArgs, loadedArgs, updArgsArray]

/-- Counterexample for C10 as stated: the claim says a bare-string entry
value leads to the nested `loaded` being invoked with no constructor
arguments; loading a parent whose map is `{c: "foo"}` invokes the
`loaded` of `c` with exactly one argument (the string itself), which the
child records on the host. -/
theorem c10_bare_string_passes_value_as_argument :
    (load storeDep 10 host0 [.str "p"]).map (fun r => r.2.2)
      = .ok [Event.loadedCall "c" 1, Event.loadedCall "p" 0]
    ∧ Event.loadedCall "c" 0 ∉ [Event.loadedCall "c" 1, Event.loadedCall "p" 0]
    ∧ (load storeDep 10 host0 [.str "p"]).map (fun r => getProp r.2.1 "cargs")
      = .ok (some (.arr [.str "foo"])) :=
  ⟨rfl, by decide, rfl⟩

/-- Witness for C10 (amended): the bare string value `foo` arrives as
the single constructor argument, an array value as its elements. -/
theorem c10_dep_value_becomes_constructor_args_witness :
    (∃ out, loadAux storeDepC 10 host0 (.deps [("c", .str "foo")]) = .ok out
      ∧ out = ((childFn host0 [.str "foo"]).1, [], [], [Event.loadedCall "c" 1]))
    ∧ ∃ out, loadAux storeDepC 10 host0 (.deps [("c", .arr [.num 1, .num 2])]) = .ok out
      ∧ out = ((childFn host0 [.num 1, .num 2]).1, [], [],
          [Event.loadedCall "c" (List.length [Value.num 1, Value.num 2])]) := by
  constructor
  · refine ⟨((childFn host0 [.str "foo"]).1, [], [], [Event.loadedCall "c" 1]), rfl, ?_⟩
    exact (c10_dep_value_becomes_constructor_args storeDepC 10 host0 "c" (.str "foo")
      depChildDef childFn rfl rfl rfl rfl _ rfl).1 rfl
  · refine ⟨((childFn host0 [.num 1, .num 2]).1, [], [],
      [Event.loadedCall "c" (List.length [Value.num 1, Value.num 2])]), rfl, ?_⟩
    exact (c10_dep_value_becomes_constructor_args storeDepC 10 host0 "c"
      (.arr [.num 1, .num 2]) depChildDef childFn rfl rfl rfl rfl _ rfl).2
      [.num 1, .num 2] rfl

end Amethyst
